import Mathlib

/-!
# Verification of the bookmark-assistant search core

A shallow embedding of the search module of the bookmark-assistant
extension (`search.js`, first/current variant, together with the
`executeSearch` dispatcher and the options page's weight handling), and
proofs of the behavioural properties claimed for it.

Strings are modelled as Lean `String`s (`toLowerCase` as a per-character
ASCII lowering, which is what the code relies on), JavaScript numbers as
`ℝ` for scores and weights, timestamps as `ℤ`, and the host collaborators
(`chrome.history.getVisits`, URL hostname parsing, `chrome.storage`) as
explicit function parameters.
-/

namespace BookmarkSearch

/-- Model of JavaScript `String.prototype.toLowerCase` as a per-character
(ASCII) lowering, the behaviour the code relies on. -/
def jsToLower (s : String) : String :=
  String.mk (s.data.map Char.toLower)

/-- Model of JavaScript `haystack.includes(needle)`: `needle` occurs as a
contiguous substring of `haystack`. -/
def jsIncludes (haystack needle : String) : Bool :=
  decide (needle.data <:+: haystack.data)

/-- Model of JavaScript `s.split(' ')`: split on every single space,
keeping empty fragments (so consecutive spaces yield empty strings, and
the empty string yields one empty fragment). -/
def splitOnSpace (s : String) : List String :=
  (s.data.foldr
    (fun c acc =>
      match acc with
      | [] => [[c]]
      | g :: gs => if c = ' ' then [] :: g :: gs else (c :: g) :: gs)
    [[]]).map String.mk

/-- Model of JavaScript `s.startsWith(pre)`. -/
def jsStartsWith (s pre : String) : Bool :=
  decide (pre.data <+: s.data)

/-- Model of JavaScript `s.substring(n)` (for `n` within bounds). -/
def jsDrop (s : String) (n : Nat) : String :=
  String.mk (s.data.drop n)

/-- Model of JavaScript `s.substring(0, n)` (for `n ≥ 0`). -/
def jsTake (s : String) (n : Nat) : String :=
  String.mk (s.data.take n)

/-- Model of JavaScript `s.trim()`: strip whitespace from both ends. -/
def jsTrim (s : String) : String :=
  String.mk
    (((s.data.dropWhile Char.isWhitespace).reverse.dropWhile
      Char.isWhitespace).reverse)

/-- Model of JavaScript `arr.join(' ')`. -/
def joinSpace (ws : List String) : String :=
  match ws with
  | [] => ""
  | w :: rest => rest.foldl (fun acc x => acc ++ " " ++ x) w

/-! ## Levenshtein distance

`levenshteinDistance` in `search.js` lower-cases both strings and then runs
a rolling-row dynamic program over a single `costs` array.  We translate
the two loops as folds over the index ranges the `for` loops traverse,
with the mutable `costs` array as a `List ℕ` threaded through the fold.
-/

/-- One iteration of the inner loop (column index `j ≥ 1`) of
`levenshteinDistance`: the state is the partially updated `costs` array
together with `lastValue`. -/
def levInner (c : Char) (s2 : List Char) (st : List Nat × Nat) (j : Nat) :
    List Nat × Nat :=
  let costs := st.1
  let lastValue := st.2
  let newValue0 := costs.getD (j - 1) 0
  let newValue :=
    if c ≠ s2.getD (j - 1) ' ' then
      min (min newValue0 lastValue) (costs.getD j 0) + 1
    else newValue0
  (costs.set (j - 1) lastValue, newValue)

/-- The body of the outer loop (row index `i ≥ 1`) of
`levenshteinDistance`: run the inner loop over `j = 1 .. s2.length` with
`lastValue` initialised to `i`, then store `lastValue` at `costs[s2.length]`. -/
def levOuter (s2 : List Char) (costs : List Nat) (c : Char) (i : Nat) :
    List Nat :=
  let st := (List.range' 1 s2.length).foldl (levInner c s2) (costs, i)
  st.1.set s2.length st.2

/-- Shallow embedding of `levenshteinDistance` from `search.js`: both
strings are lower-cased, the `i = 0` pass initialises `costs[j] = j`, and
each further row is computed by `levOuter`. -/
def levenshteinDistance (s1 s2 : String) : Nat :=
  let l1 := (jsToLower s1).data
  let l2 := (jsToLower s2).data
  let costs := List.range (l2.length + 1)
  let final := (List.range' 1 l1.length).foldl
    (fun cs i => levOuter l2 cs (l1.getD (i - 1) ' ') i) costs
  final.getD l2.length 0

/-- Reference Levenshtein distance, by recursion on the heads of the two
character lists, with the minimum taken in the same argument order as the
dynamic program. -/
def levRec : List Char → List Char → Nat
  | [], ys => ys.length
  | _ :: xs, [] => xs.length + 1
  | x :: xs, y :: ys =>
    if x = y then levRec xs ys
    else min (min (levRec xs ys) (levRec (x :: xs) ys)) (levRec xs (y :: ys)) + 1
termination_by xs ys => xs.length + ys.length
decreasing_by all_goals simp_arith

theorem levRec_nil_left (ys : List Char) : levRec [] ys = ys.length := by
  simp [levRec]

theorem levRec_nil_right (xs : List Char) : levRec xs [] = xs.length := by
  cases xs with
  | nil => simp [levRec]
  | cons x xs => simp [levRec]

theorem levRec_cons_cons (x y : Char) (xs ys : List Char) :
    levRec (x :: xs) (y :: ys) =
      if x = y then levRec xs ys
      else min (min (levRec xs ys) (levRec (x :: xs) ys))
        (levRec xs (y :: ys)) + 1 := by
  simp [levRec]

theorem levRec_self (l : List Char) : levRec l l = 0 := by
  induction l with
  | nil => simp [levRec]
  | cons x xs ih => rw [levRec_cons_cons, if_pos rfl, ih]

theorem levRec_comm (a b : List Char) : levRec a b = levRec b a := by
  have H : ∀ n (a b : List Char), a.length + b.length ≤ n →
      levRec a b = levRec b a := by
    intro n
    induction n with
    | zero =>
      intro a b h
      match a, b with
      | [], [] => rfl
      | [], _ :: _ => simp at h
      | _ :: _, _ => simp at h
    | succ n ih =>
      intro a b h
      match a, b with
      | [], [] => rfl
      | [], y :: ys => rw [levRec_nil_left, levRec_nil_right]
      | x :: xs, [] => rw [levRec_nil_left, levRec_nil_right]
      | x :: xs, y :: ys =>
        simp only [List.length_cons] at h
        rw [levRec_cons_cons, levRec_cons_cons]
        rcases eq_or_ne x y with hxy | hxy
        · subst hxy
          rw [if_pos rfl, if_pos rfl, ih xs ys (by omega)]
        · rw [if_neg hxy, if_neg (Ne.symm hxy)]
          rw [ih xs ys (by omega), ih (x :: xs) ys (by simp; omega),
            ih xs (y :: ys) (by simp; omega)]
          omega
  exact H (a.length + b.length) a b le_rfl

/-! ### Correctness of the rolling-row dynamic program

A DP row for first argument `u` lists the distances from `u` to the
reversed prefixes of the second string.  `rowFor u v B` is that row with
all prefixes extended by an already-reversed context `v`. -/

def rowTail (u : List Char) (v : List Char) : List Char → List Nat
  | [] => []
  | b :: bs => levRec u (b :: v) :: rowTail u (b :: v) bs

def rowFor (u v B : List Char) : List Nat :=
  levRec u v :: rowTail u v B

/-- Functional form of one row update of the dynamic program. -/
def levNextRow (c : Char) : List Char → List Nat → Nat → List Nat
  | y :: ys, o0 :: o1 :: os, last =>
    let v := if c ≠ y then min (min o0 last) o1 + 1 else o0
    v :: levNextRow c ys (o1 :: os) v
  | _, _, _ => []

theorem levRec_cons_cons_ne (c b : Char) (u v : List Char) :
    levRec (c :: u) (b :: v) =
      if c ≠ b then
        min (min (levRec u v) (levRec (c :: u) v)) (levRec u (b :: v)) + 1
      else levRec u v := by
  rw [levRec_cons_cons]
  by_cases h : c = b <;> simp [h]

theorem rowTail_length (u : List Char) :
    ∀ (B v : List Char), (rowTail u v B).length = B.length := by
  intro B
  induction B with
  | nil => intro v; rfl
  | cons b bs ih => intro v; simp [rowTail, ih (b :: v)]

theorem rowFor_length (u v B : List Char) :
    (rowFor u v B).length = B.length + 1 := by
  simp [rowFor, rowTail_length]

theorem levNextRow_length (c : Char) :
    ∀ (B : List Char) (old : List Nat) (last : Nat),
      old.length = B.length + 1 → (levNextRow c B old last).length = B.length := by
  intro B
  induction B with
  | nil => intro old last _; cases old with
    | nil => rfl
    | cons o os => cases os with
      | nil => rfl
      | cons o1 os => rfl
  | cons b bs ih =>
    intro old last hlen
    match old with
    | o0 :: o1 :: os =>
      simp only [levNextRow, List.length_cons]
      rw [ih (o1 :: os) _ (by simpa using hlen)]

theorem levNextRow_rowFor (c : Char) (u : List Char) :
    ∀ (B v : List Char),
      levNextRow c B (rowFor u v B) (levRec (c :: u) v) =
        rowTail (c :: u) v B := by
  intro B
  induction B with
  | nil => intro v; rfl
  | cons b bs ih =>
    intro v
    show levNextRow c (b :: bs)
        (levRec u v :: levRec u (b :: v) :: rowTail u (b :: v) bs)
        (levRec (c :: u) v) = _
    rw [levNextRow, rowTail, ← levRec_cons_cons_ne]
    exact congrArg _ (ih (b :: v))

theorem levNextRow_getD_succ (c : Char) :
    ∀ (k : Nat) (B : List Char) (old : List Nat) (last : Nat),
      k < B.length → old.length = B.length + 1 →
      (last :: levNextRow c B old last).getD (k + 1) 0 =
        if c ≠ B.getD k ' ' then
          min (min (old.getD k 0) ((last :: levNextRow c B old last).getD k 0))
            (old.getD (k + 1) 0) + 1
        else old.getD k 0 := by
  intro k
  induction k with
  | zero =>
    intro B old last hk hlen
    match B, old with
    | [], _ => simp at hk
    | b :: bs, o0 :: o1 :: os => simp [levNextRow]
  | succ k ih =>
    intro B old last hk hlen
    match B, old with
    | [], _ => simp at hk
    | b :: bs, o0 :: o1 :: os =>
      have h1 : k < bs.length := by simpa using hk
      have h2 : (o1 :: os).length = bs.length + 1 := by simpa using hlen
      have hrec := ih bs (o1 :: os) (if c ≠ b then min (min o0 last) o1 + 1 else o0) h1 h2
      simpa [levNextRow] using hrec

theorem set_append_length {α : Type _} (l1 l2 : List α) (v : α) :
    (l1 ++ l2).set l1.length v = l1 ++ l2.set 0 v := by
  rw [List.set_append_right _ _ le_rfl, Nat.sub_self]

theorem levInner_foldl (c : Char) (B : List Char) (old : List Nat) (i : Nat)
    (hlen : old.length = B.length + 1) :
    ∀ k, k ≤ B.length →
      (List.range' 1 k).foldl (levInner c B) (old, i) =
        ((i :: levNextRow c B old i).take k ++ old.drop k,
          (i :: levNextRow c B old i).getD k 0) := by
  have hNlen : (i :: levNextRow c B old i).length = B.length + 1 := by
    simp [levNextRow_length c B old i hlen]
  set N := i :: levNextRow c B old i with hN
  intro k
  induction k with
  | zero => simp [hN]
  | succ k ih =>
    intro hk
    have hk' : k ≤ B.length := Nat.le_of_succ_le hk
    have hkB : k < B.length := hk
    have hkN : k < N.length := by omega
    have hkold : k < old.length := by omega
    have htk : (N.take k).length = k := by
      rw [List.length_take]; omega
    rw [List.range'_concat, List.foldl_append, ih hk', List.foldl_cons,
      List.foldl_nil]
    show levInner c B (N.take k ++ old.drop k, N.getD k 0) (1 + 1 * k) = _
    rw [show 1 + 1 * k = k + 1 by omega]
    unfold levInner
    have hd1 : (N.take k ++ old.drop k).getD k 0 = old.getD k 0 := by
      rw [List.getD_eq_getElem?_getD, List.getElem?_append_right (by omega),
        htk, Nat.sub_self, List.getElem?_drop, Nat.add_zero,
        ← List.getD_eq_getElem?_getD]
    have hd2 : (N.take k ++ old.drop k).getD (k + 1) 0 = old.getD (k + 1) 0 := by
      rw [List.getD_eq_getElem?_getD, List.getElem?_append_right (by omega),
        htk, Nat.add_sub_cancel_left, List.getElem?_drop,
        ← List.getD_eq_getElem?_getD]
    simp only [Nat.add_sub_cancel]
    rw [Prod.mk.injEq]
    constructor
    · -- the updated costs array
      have htake : List.take (k + 1) N = List.take k N ++ [N[k]] := by
        rw [List.take_succ, List.getElem?_eq_getElem hkN]
        rfl
      have hset := set_append_length (N.take k) (old.drop k) (N.getD k 0)
      rw [htk] at hset
      have hgd : N.getD k 0 = N[k] := by
        rw [List.getD_eq_getElem?_getD, List.getElem?_eq_getElem hkN]
        rfl
      rw [hset, List.drop_eq_getElem_cons hkold, List.set_cons_zero, hgd,
        htake, List.append_assoc, List.singleton_append]
    · -- the new lastValue
      rw [hd1, hd2, hN, levNextRow_getD_succ c k B old i hkB hlen]

theorem levOuter_eq (c : Char) (B : List Char) (old : List Nat) (i : Nat)
    (hlen : old.length = B.length + 1) :
    levOuter B old c i = i :: levNextRow c B old i := by
  have hNlen : (i :: levNextRow c B old i).length = B.length + 1 := by
    simp [levNextRow_length c B old i hlen]
  set N := i :: levNextRow c B old i with hN
  have htk : (N.take B.length).length = B.length := by
    rw [List.length_take]; omega
  have hdrop : old.drop B.length = [old.getD B.length 0] := by
    rw [List.drop_eq_getElem_cons (by omega),
      List.drop_eq_nil_of_le (by omega),
      List.getD_eq_getElem?_getD, List.getElem?_eq_getElem (by omega)]
    rfl
  have hset : (N.take B.length ++ [old.getD B.length 0]).set B.length
      (N.getD B.length 0) = N.take B.length ++ [N.getD B.length 0] := by
    have h := set_append_length (N.take B.length) [old.getD B.length 0]
      (N.getD B.length 0)
    rw [htk] at h
    rw [h, List.set_cons_zero]
  have hstep : N.take B.length ++ [N.getD B.length 0] =
      N.take (B.length + 1) := by
    rw [List.take_succ, List.getElem?_eq_getElem (by omega),
      List.getD_eq_getElem?_getD, List.getElem?_eq_getElem (by omega)]
    rfl
  show ((List.range' 1 B.length).foldl (levInner c B) (old, i)).1.set
      B.length ((List.range' 1 B.length).foldl (levInner c B) (old, i)).2 = N
  rw [levInner_foldl c B old i hlen B.length le_rfl]
  show (N.take B.length ++ old.drop B.length).set B.length
      (N.getD B.length 0) = N
  rw [hdrop, hset, hstep, List.take_of_length_le (by omega)]

theorem rowTail_nil_left :
    ∀ (B v : List Char), rowTail [] v B = List.range' (v.length + 1) B.length := by
  intro B
  induction B with
  | nil => intro v; rfl
  | cons b bs ih =>
    intro v
    rw [rowTail, ih (b :: v), levRec_nil_left]
    simp only [List.length_cons]
    rw [List.range'_succ]

theorem rowFor_nil_left (B : List Char) :
    rowFor [] [] B = List.range (B.length + 1) := by
  rw [rowFor, rowTail_nil_left, levRec_nil_left, List.range_eq_range',
    List.range'_succ]
  rfl

theorem take_succ_reverse {α : Type _} (l : List α) (i : Nat) (d : α)
    (h : i < l.length) :
    (l.take (i + 1)).reverse = l.getD i d :: (l.take i).reverse := by
  rw [List.take_succ, List.getElem?_eq_getElem h, List.getD_eq_getElem?_getD,
    List.getElem?_eq_getElem h]
  simp

theorem levLoop_eq (l1 l2 : List Char) :
    ∀ i, i ≤ l1.length →
      (List.range' 1 i).foldl
        (fun cs j => levOuter l2 cs (l1.getD (j - 1) ' ') j)
        (List.range (l2.length + 1)) =
      rowFor ((l1.take i).reverse) [] l2 := by
  intro i
  induction i with
  | zero =>
    intro _
    simp [rowFor_nil_left]
  | succ i ih =>
    intro hi
    have hi' : i ≤ l1.length := Nat.le_of_succ_le hi
    have hii : i < l1.length := hi
    rw [List.range'_concat, List.foldl_append, ih hi', List.foldl_cons,
      List.foldl_nil]
    show levOuter l2 (rowFor ((l1.take i).reverse) [] l2)
        (l1.getD (1 + 1 * i - 1) ' ') (1 + 1 * i) = _
    rw [show 1 + 1 * i = i + 1 from by omega, Nat.add_sub_cancel]
    rw [levOuter_eq _ _ _ _ (rowFor_length _ _ _)]
    have hulen : ((l1.take i).reverse).length = i := by
      rw [List.length_reverse, List.length_take]
      omega
    have hlr : levRec (l1.getD i ' ' :: (l1.take i).reverse) [] = i + 1 := by
      rw [levRec_nil_right, List.length_cons, hulen]
    rw [take_succ_reverse l1 i ' ' hii, ← hlr, levNextRow_rowFor]
    rfl

theorem rowFor_getD_last :
    ∀ (B : List Char) (u v : List Char),
      (rowFor u v B).getD B.length 0 = levRec u (B.reverse ++ v) := by
  intro B
  induction B with
  | nil => intro u v; simp [rowFor]
  | cons b bs ih =>
    intro u v
    show (levRec u v :: rowFor u (b :: v) bs).getD (bs.length + 1) 0 = _
    rw [List.getD_cons_succ, ih u (b :: v)]
    simp [List.append_assoc]

/-- The dynamic program of `levenshteinDistance` computes the reference
Levenshtein distance of the two lower-cased strings (read back to front,
which is immaterial for a distance). -/
theorem levenshteinDistance_eq_levRec (s1 s2 : String) :
    levenshteinDistance s1 s2 =
      levRec (jsToLower s1).data.reverse (jsToLower s2).data.reverse := by
  show ((List.range' 1 (jsToLower s1).data.length).foldl
      (fun cs i => levOuter (jsToLower s2).data cs
        ((jsToLower s1).data.getD (i - 1) ' ') i)
      (List.range ((jsToLower s2).data.length + 1))).getD
      (jsToLower s2).data.length 0 = _
  rw [levLoop_eq (jsToLower s1).data (jsToLower s2).data _ le_rfl,
    List.take_length, rowFor_getD_last, List.append_nil]

theorem jsToLower_data (s : String) :
    (jsToLower s).data = s.data.map Char.toLower := rfl

theorem jsToLower_data_length (s : String) :
    (jsToLower s).data.length = s.length := by
  rw [jsToLower_data, List.length_map]
  rfl

/-- Claim C8: the edit-distance function is total and deterministic (it is
a Lean function), and satisfies `distance a b = distance b a`,
`distance a a = 0`, and `distance s empty = s.length` (in both argument
orders). -/
theorem levenshteinDistance_algebra :
    (∀ a b : String, levenshteinDistance a b = levenshteinDistance b a) ∧
    (∀ a : String, levenshteinDistance a a = 0) ∧
    (∀ s : String, levenshteinDistance s "" = s.length) ∧
    (∀ s : String, levenshteinDistance "" s = s.length) := by
  refine ⟨fun a b => ?_, fun a => ?_, fun s => ?_, fun s => ?_⟩
  · rw [levenshteinDistance_eq_levRec, levenshteinDistance_eq_levRec,
      levRec_comm]
  · rw [levenshteinDistance_eq_levRec, levRec_self]
  · rw [levenshteinDistance_eq_levRec]
    show levRec (jsToLower s).data.reverse [] = s.length
    rw [levRec_nil_right, List.length_reverse, jsToLower_data_length]
  · rw [levenshteinDistance_eq_levRec]
    show levRec [] (jsToLower s).data.reverse = s.length
    rw [levRec_nil_left, List.length_reverse, jsToLower_data_length]

/-! ## Data model -/

/-- A flattened bookmark record: `title`, `url` and the folder `path`
string produced by the cache-building `flattenBookmarks`. -/
structure Bookmark where
  title : String
  url : String
  path : String
deriving DecidableEq

/-! ## Query parsing (customSearch step 1) -/

/-- Step 1 of `customSearch`: lower-case the query, split on single
spaces, drop empty tokens; tokens starting with a hash are tag filters
(with the hash stripped), the rest are the term tokens.  Returns the pair
(term tokens, tag filters). -/
def parseQuery (query : String) : List String × List String :=
  let lowerCaseQuery := jsToLower query
  let allQueryWords := (splitOnSpace lowerCaseQuery).filter (fun w => w != "")
  let tagFilters := (allQueryWords.filter (fun w => jsStartsWith w "#")).map
    (fun t => jsDrop t 1)
  let queryWords := allQueryWords.filter (fun w => !jsStartsWith w "#")
  (queryWords, tagFilters)

/-! ## Tag pre-filter (customSearch step 2) -/

/-- The per-tag match test of the tag pre-filter: substring containment,
else edit distance within a length-scaled threshold (2 for owned tags
longer than 5 characters, else 1). -/
def tagMatches (tag filterTag : String) : Bool :=
  if jsIncludes tag filterTag then true
  else
    decide (levenshteinDistance tag filterTag ≤
      if tag.length > 5 then 2 else 1)

/-- Step 2 of `customSearch`: when tag filters are present, keep only the
bookmarks whose tag set matches every filter tag; bookmarks without tags
are dropped. -/
def filterByTags (tagFilters : List String)
    (bookmarkTags : String → List String) (allBookmarks : List Bookmark) :
    List Bookmark :=
  if 0 < tagFilters.length then
    allBookmarks.filter fun bookmark =>
      let tags := bookmarkTags bookmark.url
      if tags.length = 0 then false
      else tagFilters.all fun filterTag =>
        tags.any fun tag => tagMatches tag filterTag
  else allBookmarks

theorem tagMatches_iff (tag ft : String) :
    tagMatches tag ft = true ↔
      (jsIncludes tag ft = true ∨
        levenshteinDistance tag ft ≤ if tag.length > 5 then 2 else 1) := by
  unfold tagMatches
  by_cases h : jsIncludes tag ft = true
  · simp [h]
  · simp [h]

/-- Claim C1: with at least one tag filter present, the tag filter keeps
exactly the candidates whose tag set contains, for every filter tag, a tag
matching it by substring containment or by edit distance within the
length-scaled threshold; candidates without tags are always excluded; and
the result is a subset of the input. -/
theorem filterByTags_spec (query : String)
    (bookmarkTags : String → List String) (allBookmarks : List Bookmark)
    (h : (parseQuery query).2 ≠ []) :
    (∀ b, b ∈ filterByTags (parseQuery query).2 bookmarkTags allBookmarks ↔
        b ∈ allBookmarks ∧
          ∀ ft ∈ (parseQuery query).2, ∃ t ∈ bookmarkTags b.url,
            (jsIncludes t ft = true ∨
              levenshteinDistance t ft ≤ if t.length > 5 then 2 else 1)) ∧
    (∀ b ∈ filterByTags (parseQuery query).2 bookmarkTags allBookmarks,
        bookmarkTags b.url ≠ []) ∧
    (∀ b ∈ filterByTags (parseQuery query).2 bookmarkTags allBookmarks,
        b ∈ allBookmarks) := by
  have hlen : 0 < (parseQuery query).2.length := List.length_pos.mpr h
  have hmem : ∀ b, b ∈ filterByTags (parseQuery query).2 bookmarkTags allBookmarks ↔
      b ∈ allBookmarks ∧
        ∀ ft ∈ (parseQuery query).2, ∃ t ∈ bookmarkTags b.url,
          (jsIncludes t ft = true ∨
            levenshteinDistance t ft ≤ if t.length > 5 then 2 else 1) := by
    intro b
    rw [filterByTags, if_pos hlen, List.mem_filter]
    refine and_congr_right fun _ => ?_
    by_cases ht : (bookmarkTags b.url).length = 0
    · rw [if_pos ht]
      simp only [Bool.false_eq_true, false_iff, not_forall]
      obtain ⟨ft, hft⟩ := List.exists_mem_of_ne_nil _ h
      refine ⟨ft, hft, ?_⟩
      rw [List.length_eq_zero] at ht
      simp [ht]
    · rw [if_neg ht, List.all_eq_true]
      refine forall₂_congr fun ft _ => ?_
      rw [List.any_eq_true]
      exact exists_congr fun t => and_congr_right fun _ => tagMatches_iff t ft
  refine ⟨hmem, fun b hb => ?_, fun b hb => ((hmem b).mp hb).1⟩
  obtain ⟨-, hall⟩ := (hmem b).mp hb
  obtain ⟨ft, hft⟩ := List.exists_mem_of_ne_nil _ h
  obtain ⟨t, htmem, -⟩ := hall ft hft
  exact fun hnil => by simp [hnil] at htmem

theorem filterByTags_spec_witness :
    ((parseQuery "#work").2 ≠ []) ∧
      (⟨"A", "https://a.com", ""⟩ : Bookmark) ∈
        filterByTags (parseQuery "#work").2
          (fun u => if u = "https://a.com" then ["work", "urgent"] else [])
          [⟨"A", "https://a.com", ""⟩, ⟨"B", "https://b.com", ""⟩] :=
  ⟨by decide, by
    have h := filterByTags_spec "#work"
      (fun u => if u = "https://a.com" then ["work", "urgent"] else [])
      [⟨"A", "https://a.com", ""⟩, ⟨"B", "https://b.com", ""⟩] (by decide)
    exact (h.1 _).mpr (by decide)⟩

/-! ## The executeSearch dispatcher (popup) -/

/-- Model of `executeSearch`: the input is trimmed and a query starting
with a colon clears the result list and returns before any search is run;
a non-empty query invokes the supplied search; an empty query shows the
pinned results (bookmark mode).  The search function and the pinned list
are parameters so that non-invocation of the search core is visible in
the statement. -/
def executeSearchResults {α : Type _} (search : String → List α)
    (pinResults : List α) (rawQuery : String) : List α :=
  let query := jsTrim rawQuery
  if jsStartsWith query ":" then []
  else if query.length > 0 then search query
  else pinResults

/-- Claim C9, counterexample: the core query parser does not special-case
a leading colon; the query of a single word starting with a colon yields
one term token (not zero) and no tag filter. -/
theorem parseQuery_colon_counterexample :
    (parseQuery ":x").1 = [":x"] ∧ (parseQuery ":x").2 = [] ∧
      ¬ (parseQuery ":x").1.length = 0 := by
  refine ⟨by decide, by decide, by decide⟩

/-- Claim C9, amended: a trimmed query starting with a colon is
intercepted by the surrounding `executeSearch`, which clears the result
list and returns without invoking the search core (the result is empty
for every possible search function); the core parser itself treats such
a word as an ordinary term token. -/
theorem executeSearch_colon_bypass {α : Type _}
    (search : String → List α) (pinResults : List α) (rawQuery : String)
    (h : jsStartsWith (jsTrim rawQuery) ":" = true) :
    executeSearchResults search pinResults rawQuery = [] := by
  rw [executeSearchResults, if_pos h]

theorem executeSearch_colon_bypass_witness :
    (jsStartsWith (jsTrim ":x one") ":" = true) ∧
      executeSearchResults (fun q => [q.length]) [7] ":x one" = [] :=
  ⟨by decide, executeSearch_colon_bypass (fun q => [q.length]) [7] ":x one"
    (by decide)⟩

/-! ## Case sensitivity of tag containment (claim C10) -/

/-- Claim C10: the Pass-1 tag containment test compares the stored tag
against the lower-cased token, so a tag differing from the token only in
letter case never passes containment (and never earns the tag-match
weight); the same pair still passes the tag filter, through the fuzzy
branch, whose edit distance lower-cases both sides and yields 0. -/
theorem tag_case_sensitivity (tag w : String)
    (hcase : jsToLower tag = jsToLower w) (hne : tag ≠ w) :
    ([tag].any fun t => jsIncludes t w) = false ∧
    tagMatches tag w = true ∧
    levenshteinDistance tag w = 0 := by
  have hlev : levenshteinDistance tag w = 0 := by
    rw [levenshteinDistance_eq_levRec, hcase, levRec_self]
  have hlenEq : w.data.length = tag.data.length := by
    have h1 := congrArg (fun t => t.data.length) hcase
    simpa [jsToLower_data] using h1.symm
  have hinc : jsIncludes tag w = false := by
    by_contra hcon
    rw [Bool.not_eq_false, jsIncludes, decide_eq_true_eq] at hcon
    have heq : w.data = tag.data :=
      hcon.sublist.eq_of_length hlenEq
    exact hne (by cases tag; cases w; exact congrArg String.mk heq.symm)
  refine ⟨by simp [hinc], ?_, hlev⟩
  rw [tagMatches, if_neg (by simp [hinc]), hlev]
  by_cases h5 : tag.length > 5 <;> simp [h5]

/-! ## Scoring weights (configuration surface, claim C5) -/

/-- The scoring weights used by the search core.  Matching the defaults
object of `customSearch`, there are exactly these seven keys; the code
has no pathMatch key. -/
structure Weights where
  titleMatch : ℝ
  startsWithBonus : ℝ
  tagMatch : ℝ
  urlMatch : ℝ
  allWordsBonus : ℝ
  visitCount : ℝ
  recency : ℝ

/-- The documented default weights. -/
noncomputable def defaultWeights : Weights :=
  ⟨10, 15, 20, 3, 1.5, 5, 10⟩

/-- A weights object as held in `chrome.storage.sync`: each recognized
key may be present or missing. -/
structure StoredWeights where
  titleMatch : Option ℝ
  startsWithBonus : Option ℝ
  tagMatch : Option ℝ
  urlMatch : Option ℝ
  allWordsBonus : Option ℝ
  visitCount : Option ℝ
  recency : Option ℝ

/-- The full defaults object (the defaults literal in `customSearch`, and
`DEFAULT_WEIGHTS` in the options page), with every key present. -/
noncomputable def defaultStoredWeights : StoredWeights :=
  ⟨some 10, some 15, some 20, some 3, some 1.5, some 5, some 10⟩

/-- Modelled host API: `chrome.storage.sync.get` called with a defaults
object, as the search core does.  It returns the stored value of the key
whenever one is present and the supplied default only when the key is
absent; it performs no per-field merge. -/
noncomputable def syncGetWeights (stored : Option StoredWeights) :
    StoredWeights :=
  match stored with
  | some w => w
  | none => defaultStoredWeights

/-- The options page restore path (`restoreOptions`): spread the stored
object over `DEFAULT_WEIGHTS`, so each missing key falls back to its
default while each present key keeps its stored value. -/
noncomputable def mergeOverDefaults (w : StoredWeights) : StoredWeights :=
  ⟨some (w.titleMatch.getD 10), some (w.startsWithBonus.getD 15),
    some (w.tagMatch.getD 20), some (w.urlMatch.getD 3),
    some (w.allWordsBonus.getD 1.5), some (w.visitCount.getD 5),
    some (w.recency.getD 10)⟩

/-- A partial stored configuration: only titleMatch present. -/
noncomputable def partialStoredWeights : StoredWeights :=
  ⟨some 7, none, none, none, none, none, none⟩

/-- Claim C5, counterexample: with a partial configuration stored, the
search core's configuration read keeps the present key but does not fall
back to the documented default for a missing key: tagMatch comes back
absent, not 20. -/
theorem syncGetWeights_no_merge :
    (syncGetWeights (some partialStoredWeights)).titleMatch = some 7 ∧
      (syncGetWeights (some partialStoredWeights)).tagMatch ≠ some 20 := by
  refine ⟨rfl, ?_⟩
  show (none : Option ℝ) ≠ some 20
  simp

/-- Claim C5, amended: when the configuration is entirely absent the
search core's read returns the full defaults; a present (possibly
partial) configuration is returned exactly as stored, with no key-by-key
merge; the merge over the defaults happens only in the options page's
restore path, which fills every missing key with its documented default
and keeps every present key. -/
theorem syncGetWeights_spec :
    syncGetWeights none = defaultStoredWeights ∧
    (∀ w, syncGetWeights (some w) = w) ∧
    (∀ w, (mergeOverDefaults w).titleMatch = some (w.titleMatch.getD 10) ∧
      (mergeOverDefaults w).startsWithBonus =
        some (w.startsWithBonus.getD 15) ∧
      (mergeOverDefaults w).tagMatch = some (w.tagMatch.getD 20) ∧
      (mergeOverDefaults w).urlMatch = some (w.urlMatch.getD 3) ∧
      (mergeOverDefaults w).allWordsBonus =
        some (w.allWordsBonus.getD 1.5) ∧
      (mergeOverDefaults w).visitCount = some (w.visitCount.getD 5) ∧
      (mergeOverDefaults w).recency = some (w.recency.getD 10)) :=
  ⟨rfl, fun _ => rfl, fun _ => ⟨rfl, rfl, rfl, rfl, rfl, rfl, rfl⟩⟩

theorem tag_case_sensitivity_witness :
    (jsToLower "Work" = jsToLower "work") ∧ ("Work" ≠ "work") ∧
      (([ "Work" ].any fun t => jsIncludes t "work") = false ∧
        tagMatches "Work" "work" = true ∧
        levenshteinDistance "Work" "work" = 0) :=
  ⟨by decide, by decide,
    tag_case_sensitivity "Work" "work" (by decide) (by decide)⟩

/-! ## Pass 1: lexical scoring -/

/-- A provisional or final search result: a bookmark together with its
transient score. -/
structure ScoredResult where
  item : Bookmark
  score : ℝ

/-- The per-term-token body of the Pass-1 loop: the tag check is
independent and additive; the title check (with its starts-with bonus)
takes priority over the URL check; the folder path is not consulted.
Returns the score contribution of this token and whether it matched. -/
noncomputable def scoreWord (w : Weights) (tags : List String)
    (lowerCaseTitle bookmarkUrl word : String) : ℝ × Bool :=
  let tagHit := tags.any fun tag => jsIncludes tag word
  let base : ℝ := if tagHit then w.tagMatch else 0
  if jsIncludes lowerCaseTitle word then
    let bonus : ℝ :=
      if (splitOnSpace lowerCaseTitle).any
          (fun titleWord => jsStartsWith titleWord word) then
        w.startsWithBonus
      else 0
    (base + w.titleMatch + bonus, true)
  else if jsIncludes bookmarkUrl word then
    (base + w.urlMatch, true)
  else (base, tagHit)

/-- Insertion into the `matchedWords` set (a JS `Set` keeps one copy of
each value, in insertion order). -/
def insertWord (s : List String) (word : String) : List String :=
  if word ∈ s then s else s ++ [word]

/-- The Pass-1 loop over the term tokens, accumulating the score and the
set of matched tokens. -/
noncomputable def pass1Accum (w : Weights) (tags : List String)
    (lowerCaseTitle bookmarkUrl : String) (queryWords : List String) :
    ℝ × List String :=
  queryWords.foldl
    (fun acc word =>
      let r := scoreWord w tags lowerCaseTitle bookmarkUrl word
      (acc.1 + r.1, if r.2 then insertWord acc.2 word else acc.2))
    (0, [])

/-- The accumulated lexical score of one candidate: the per-token loop,
the edit-distance fallback when not every token matched, and the
tag-only-query overwrite.  Returns the score together with the matched
token set. -/
noncomputable def lexicalScore (w : Weights) (tags : List String)
    (lowerCaseTitle bookmarkUrl : String) (queryWords : List String)
    (isTagOnlySearch : Bool) : ℝ × List String :=
  let a := pass1Accum w tags lowerCaseTitle bookmarkUrl queryWords
  let score := a.1
  let matchedWords := a.2
  let score :=
    if 0 < queryWords.length ∧ matchedWords.length < queryWords.length then
      let joined := joinSpace queryWords
      let distance := levenshteinDistance joined (jsTake lowerCaseTitle joined.length)
      if distance ≤ joined.length / 4 then
        score + (20 - (distance : ℝ) * 5)
      else score
    else score
  let score := if isTagOnlySearch then w.tagMatch else score
  (score, matchedWords)

/-- The two multipliers applied to a positively scored candidate: the
all-words bonus when every (distinct) term token matched and there were
at least two, then the domain-affinity multiplier.  `getHostname` models
`new URL(url).hostname` with the try/catch as an `Option`. -/
noncomputable def applyMultipliers (w : Weights)
    (getHostname : String → Option String) (domainScores : String → ℕ)
    (queryWords : List String) (bookmark : Bookmark) (a : ℝ × List String) :
    ℝ :=
  let score :=
    if a.2.length = queryWords.length ∧ 1 < queryWords.length then
      a.1 * w.allWordsBonus
    else a.1
  match getHostname bookmark.url with
  | some domain =>
    if domainScores domain ≠ 0 then
      score * (1 + Real.log (1 + (domainScores domain : ℝ)) * 0.1)
    else score
  | none => score

/-- The Pass-1 body for one candidate: accumulate the lexical score, keep
the candidate only when it is strictly positive, then apply the two
multipliers. -/
noncomputable def scoreBookmark (w : Weights)
    (getHostname : String → Option String) (domainScores : String → ℕ)
    (bookmarkTags : String → List String) (queryWords : List String)
    (isTagOnlySearch : Bool) (bookmark : Bookmark) : Option ScoredResult :=
  let lowerCaseTitle := jsToLower bookmark.title
  let bookmarkUrl := jsToLower bookmark.url
  let tags := bookmarkTags bookmark.url
  let a := lexicalScore w tags lowerCaseTitle bookmarkUrl queryWords
    isTagOnlySearch
  if 0 < a.1 then
    some ⟨bookmark,
      applyMultipliers w getHostname domainScores queryWords bookmark a⟩
  else none

/-- Claim C4, counterexample: a term token contained only in the folder
path earns nothing — the token matches neither tags, title nor URL of the
bookmark with title A, url u and path dev, the path contains the token,
yet the candidate's score accumulates to zero and it is dropped rather
than receiving the documented path-match weight 5. -/
theorem scoreBookmark_ignores_path :
    (jsIncludes (jsToLower "dev") "dev" = true) ∧
    (scoreWord defaultWeights [] (jsToLower "A") (jsToLower "u") "dev" =
      (0, false)) ∧
    (scoreBookmark defaultWeights (fun _ => none) (fun _ => 0) (fun _ => [])
      ["dev"] false ⟨"A", "u", "dev"⟩ = none) := by
  have hsw : scoreWord defaultWeights [] (jsToLower "A") (jsToLower "u")
      "dev" = (0, false) := by
    rw [scoreWord]
    have h1 : jsIncludes (jsToLower "A") "dev" = false := by decide
    have h2 : jsIncludes (jsToLower "u") "dev" = false := by decide
    rw [h1, h2]
    simp
  have hacc : pass1Accum defaultWeights [] (jsToLower "A") (jsToLower "u")
      ["dev"] = (0, []) := by
    simp only [pass1Accum, List.foldl_cons, List.foldl_nil, hsw]
    norm_num
  have hlex : lexicalScore defaultWeights [] (jsToLower "A") (jsToLower "u")
      ["dev"] false = (0, []) := by
    rw [lexicalScore, hacc]
    have hdist : levenshteinDistance (joinSpace ["dev"])
        (jsTake (jsToLower "A") (joinSpace ["dev"]).length) = 3 := by decide
    simp only [hdist]
    norm_num
    decide
  refine ⟨by decide, hsw, ?_⟩
  rw [scoreBookmark]
  show (if 0 < (lexicalScore defaultWeights [] (jsToLower "A") (jsToLower "u")
      ["dev"] false).1 then _ else none) = none
  rw [hlex]
  norm_num

/-- Claim C4, amended: the lexical scorer never consults the folder path
(`scoreWord` does not even receive it): a term token that matches none of
tag containment, title containment and URL containment contributes
nothing at all — there is no path-match weight in the code. -/
theorem scoreWord_no_path (w : Weights) (tags : List String)
    (lowerCaseTitle bookmarkUrl word : String)
    (htag : (tags.any fun tag => jsIncludes tag word) = false)
    (htitle : jsIncludes lowerCaseTitle word = false)
    (hurl : jsIncludes bookmarkUrl word = false) :
    scoreWord w tags lowerCaseTitle bookmarkUrl word = (0, false) := by
  rw [scoreWord, htitle, hurl]
  simp [htag]

theorem scoreWord_no_path_witness :
    ((([] : List String).any fun tag => jsIncludes tag "dev") = false) ∧
      (jsIncludes (jsToLower "A") "dev" = false) ∧
      (jsIncludes (jsToLower "u") "dev" = false) ∧
      scoreWord defaultWeights [] (jsToLower "A") (jsToLower "u") "dev" =
        (0, false) :=
  ⟨by decide, by decide, by decide,
    scoreWord_no_path defaultWeights [] (jsToLower "A") (jsToLower "u") "dev"
      (by decide) (by decide) (by decide)⟩

/-! ## Provisional ranking -/

/-- The JS sort with comparator `b.score - a.score`: descending by score
(the host's sort is a stable merge sort). -/
noncomputable def sortByScoreDesc (l : List ScoredResult) :
    List ScoredResult :=
  l.mergeSort fun a b => decide (b.score ≤ a.score)

/-- Pass 1 of `customSearch`: parse the query, pre-filter by tags, score
every surviving candidate, keep the strictly positive ones. -/
noncomputable def preliminaryResultsOf (w : Weights)
    (getHostname : String → Option String) (domainScores : String → ℕ)
    (bookmarkTags : String → List String) (query : String)
    (allBookmarks : List Bookmark) : List ScoredResult :=
  let p := parseQuery query
  let workingBookmarks := filterByTags p.2 bookmarkTags allBookmarks
  let isTagOnlySearch := decide (p.1.length = 0) && decide (0 < p.2.length)
  workingBookmarks.filterMap
    (scoreBookmark w getHostname domainScores bookmarkTags p.1
      isTagOnlySearch)

/-- The Pass-2 input: the provisional results sorted descending by score
and capped at the top 25. -/
noncomputable def topResultsOf (w : Weights)
    (getHostname : String → Option String) (domainScores : String → ℕ)
    (bookmarkTags : String → List String) (query : String)
    (allBookmarks : List Bookmark) : List ScoredResult :=
  (sortByScoreDesc
    (preliminaryResultsOf w getHostname domainScores bookmarkTags query
      allBookmarks)).take 25

/-! ## Pass 2: history and recency enrichment -/

/-- A visit-count cache entry (`visitCount`, `lastVisit`, `timestamp`
fields as written by the pass-2 callback). -/
structure CacheEntry where
  visitCount : ℕ
  lastVisit : ℤ
  timestamp : ℤ
deriving DecidableEq

/-- One visit record from `chrome.history.getVisits` (newest first). -/
structure Visit where
  visitTime : ℤ
deriving DecidableEq

/-- The 24-hour cache TTL, in milliseconds. -/
def CACHE_TTL : ℤ := 1000 * 60 * 60 * 24

/-- Milliseconds per day, the divisor of the daysAgo computations. -/
noncomputable def msPerDay : ℝ := 1000 * 60 * 60 * 24

/-- The score bonus taken from a fresh cache entry: the log-scaled visit
count, plus, when a last-visit timestamp is present (non-zero), the
linearly decaying recency bonus. -/
noncomputable def cacheBonus (w : Weights) (now : ℤ) (e : CacheEntry) : ℝ :=
  Real.log ((e.visitCount : ℝ) + 1) * w.visitCount +
    if e.lastVisit ≠ 0 then
      max 0 (w.recency - ((now : ℝ) - (e.lastVisit : ℝ)) / msPerDay)
    else 0

/-- The score bonus computed by the getVisits callback from a non-empty
visit list (the first record is the most recent). -/
noncomputable def historyBonus (w : Weights) (now : ℤ)
    (visits : List Visit) : ℝ :=
  Real.log ((visits.length : ℝ) + 1) * w.visitCount +
    max 0 (w.recency -
      ((now : ℝ) - ((visits.headD ⟨0⟩).visitTime : ℝ)) / msPerDay)

/-- The getVisits callback for one entry that missed the cache: a failed
lookup yields no records, and only a non-empty record list adds the two
bonuses. -/
noncomputable def enrichFromHistory (w : Weights) (now : ℤ)
    (getVisits : String → Option (List Visit)) (r : ScoredResult) :
    ScoredResult :=
  let visits := (getVisits r.item.url).getD []
  if 0 < visits.length then
    { r with score := r.score + historyBonus w now visits }
  else r

/-- Pass-2 treatment of one top result: a cached entry younger than the
TTL is reused for the bonus and no lookup is issued; otherwise a fresh
history lookup is issued for the url. -/
noncomputable def enrichResult (w : Weights) (now : ℤ)
    (cache : String → Option CacheEntry)
    (getVisits : String → Option (List Visit)) (r : ScoredResult) :
    ScoredResult :=
  match cache r.item.url with
  | some e =>
    if now - e.timestamp < CACHE_TTL then
      { r with score := r.score + cacheBonus w now e }
    else enrichFromHistory w now getVisits r
  | none => enrichFromHistory w now getVisits r

/-- Whether pass 2 issues a history lookup for this url: yes when the
cache has no entry or only an entry at least as old as the TTL. -/
def isCacheMiss (now : ℤ) (cache : String → Option CacheEntry)
    (url : String) : Bool :=
  match cache url with
  | some e => decide (¬ now - e.timestamp < CACHE_TTL)
  | none => true

/-- The urls for which pass 2 issues history lookups, in order. -/
def issuedLookups (now : ℤ) (cache : String → Option CacheEntry)
    (topResults : List ScoredResult) : List String :=
  (topResults.filter fun r => isCacheMiss now cache r.item.url).map
    fun r => r.item.url

/-- The cache write performed by one getVisits callback: only a url with
at least one visit record gets a fresh entry. -/
def cacheWriteFor (now : ℤ) (getVisits : String → Option (List Visit))
    (cache : String → Option CacheEntry) (url : String) :
    String → Option CacheEntry :=
  let visits := (getVisits url).getD []
  if 0 < visits.length then
    fun u => if u = url then
        some ⟨visits.length, (visits.headD ⟨0⟩).visitTime, now⟩
      else cache u
  else cache

/-- The visit-count cache after pass 2: the callbacks of all cache-missed
entries run after the loop, each writing its entry on a non-empty
lookup. -/
def cacheAfter (now : ℤ) (cache0 : String → Option CacheEntry)
    (getVisits : String → Option (List Visit))
    (topResults : List ScoredResult) : String → Option CacheEntry :=
  (topResults.filter fun r => isCacheMiss now cache0 r.item.url).foldl
    (fun c r => cacheWriteFor now getVisits c r.item.url) cache0

/-- The enriched top results (the per-entry cache reads all use the cache
as it was when the loop ran, since the callbacks fire afterwards). -/
noncomputable def enrichedResultsOf (w : Weights)
    (getHostname : String → Option String)
    (getVisits : String → Option (List Visit)) (now : ℤ) (query : String)
    (allBookmarks : List Bookmark)
    (visitCountCache : String → Option CacheEntry)
    (domainScores : String → ℕ) (bookmarkTags : String → List String) :
    List ScoredResult :=
  (topResultsOf w getHostname domainScores bookmarkTags query
    allBookmarks).map (enrichResult w now visitCountCache getVisits)

/-- Claim C6: for a url of the Pass-2 top list that has a cached entry,
an entry whose age has reached the TTL is not reused — the entry
contributes no bonus and a fresh history lookup is issued for the url —
while an entry strictly younger than the TTL is reused for the cache
bonus and no lookup is issued. -/
theorem pass2_cache_ttl (w : Weights) (now : ℤ)
    (cache : String → Option CacheEntry)
    (getVisits : String → Option (List Visit))
    (topResults : List ScoredResult) (url : String) (e : CacheEntry)
    (hmem : url ∈ topResults.map fun r => r.item.url)
    (hc : cache url = some e) :
    (CACHE_TTL ≤ now - e.timestamp →
      url ∈ issuedLookups now cache topResults ∧
      ∀ r ∈ topResults, r.item.url = url →
        enrichResult w now cache getVisits r =
          enrichFromHistory w now getVisits r) ∧
    (now - e.timestamp < CACHE_TTL →
      url ∉ issuedLookups now cache topResults ∧
      ∀ r ∈ topResults, r.item.url = url →
        enrichResult w now cache getVisits r =
          { r with score := r.score + cacheBonus w now e }) := by
  obtain ⟨r0, hr0, hr0u⟩ := List.mem_map.mp hmem
  constructor
  · intro hexp
    have hmiss : isCacheMiss now cache url = true := by
      rw [isCacheMiss, hc]
      simp only [decide_eq_true_eq]
      omega
    constructor
    · refine List.mem_map.mpr ⟨r0, List.mem_filter.mpr ⟨hr0, ?_⟩, hr0u⟩
      rw [hr0u]
      exact hmiss
    · intro r _ hru
      rw [enrichResult, hru, hc]
      show (if now - e.timestamp < CACHE_TTL
          then { r with score := r.score + cacheBonus w now e }
          else enrichFromHistory w now getVisits r) =
        enrichFromHistory w now getVisits r
      rw [if_neg (by omega)]
  · intro hfresh
    constructor
    · intro hin
      obtain ⟨r, hrf, hru⟩ := List.mem_map.mp hin
      have := (List.mem_filter.mp hrf).2
      rw [hru, isCacheMiss, hc] at this
      simp only [decide_eq_true_eq] at this
      omega
    · intro r _ hru
      rw [enrichResult, hru, hc]
      show (if now - e.timestamp < CACHE_TTL
          then { r with score := r.score + cacheBonus w now e }
          else enrichFromHistory w now getVisits r) =
        { r with score := r.score + cacheBonus w now e }
      rw [if_pos hfresh]

theorem pass2_cache_ttl_witness :
    (CACHE_TTL ≤ (0 : ℤ) - (-90000000)) ∧
      "u" ∈ issuedLookups 0
        (fun u => if u = "u" then some ⟨2, 5, -90000000⟩ else none)
        [⟨⟨"T", "u", "p"⟩, 1⟩] :=
  ⟨by decide,
    ((pass2_cache_ttl defaultWeights 0
      (fun u => if u = "u" then some ⟨2, 5, -90000000⟩ else none)
      (fun _ => none) [⟨⟨"T", "u", "p"⟩, 1⟩] "u" ⟨2, 5, -90000000⟩
      (by simp) (by simp)).1 (by decide)).1⟩

/-- Claim C7: a url whose history lookup fails or returns no visit
records gets no bonus — the callback leaves the entry's score unchanged —
and writes nothing to the visit-count cache, whose entry for that url
stays exactly what it was before the search. -/
theorem pass2_empty_lookup (w : Weights) (now : ℤ)
    (cache : String → Option CacheEntry)
    (getVisits : String → Option (List Visit))
    (topResults : List ScoredResult) (url : String)
    (h : getVisits url = none ∨ getVisits url = some []) :
    (∀ r : ScoredResult, r.item.url = url →
      enrichFromHistory w now getVisits r = r) ∧
    cacheAfter now cache getVisits topResults url = cache url := by
  have hempty : (getVisits url).getD [] = [] := by
    rcases h with h | h <;> simp [h]
  constructor
  · intro r hru
    rw [enrichFromHistory, hru, hempty]
    simp
  · rw [cacheAfter]
    have step : ∀ (c : String → Option CacheEntry) (u' : String),
        c url = cache url →
        cacheWriteFor now getVisits c u' url = cache url := by
      intro c u' hcu
      rw [cacheWriteFor]
      by_cases hv : 0 < ((getVisits u').getD []).length
      · rw [if_pos hv]
        by_cases hu : url = u'
        · subst hu
          rw [hempty] at hv
          simp at hv
        · simp only [if_neg hu]
          exact hcu
      · rw [if_neg hv]
        exact hcu
    have main : ∀ (l : List ScoredResult) (c : String → Option CacheEntry),
        c url = cache url →
        (l.foldl (fun c r => cacheWriteFor now getVisits c r.item.url) c)
          url = cache url := by
      intro l
      induction l with
      | nil => intro c hcu; exact hcu
      | cons r l ih =>
        intro c hcu
        exact ih _ (step c r.item.url hcu)
    exact main _ cache rfl

theorem pass2_empty_lookup_witness :
    ((fun (_ : String) => some ([] : List Visit)) "u" = none ∨
      (fun (_ : String) => some ([] : List Visit)) "u" = some []) ∧
      cacheAfter 0 (fun _ => none) (fun _ => some [])
        [⟨⟨"T", "u", "p"⟩, 1⟩] "u" = (fun _ => none) "u" :=
  ⟨Or.inr rfl,
    (pass2_empty_lookup defaultWeights 0 (fun _ => none) (fun _ => some [])
      [⟨⟨"T", "u", "p"⟩, 1⟩] "u" (Or.inr rfl)).2⟩

/-! ## Pass 3: deduplication and final ordering -/

/-- One step of the Map-building loop: a first occurrence of a url is
appended; a strictly better score replaces the stored entry in place. -/
noncomputable def dedupStep (m : List (String × ScoredResult))
    (r : ScoredResult) : List (String × ScoredResult) :=
  match m.find? (fun p => p.1 == r.item.url) with
  | none => m ++ [(r.item.url, r)]
  | some p =>
    if p.2.score < r.score then
      m.map fun q => if q.1 == r.item.url then (q.1, r) else q
    else m

/-- Deduplication by url, keeping the highest-scoring entry per url (the
Map's values in insertion order). -/
noncomputable def dedupByUrl (l : List ScoredResult) : List ScoredResult :=
  (l.foldl dedupStep []).map Prod.snd

/-- The invariant of the Map-building loop of pass 3: keys are unique,
each stored value carries its key as url and comes from the processed
prefix, and every processed entry is dominated by the stored value for
its url. -/
def DedupInv (seen : List ScoredResult)
    (m : List (String × ScoredResult)) : Prop :=
  (m.map Prod.fst).Nodup ∧
  (∀ p ∈ m, p.2.item.url = p.1 ∧ p.2 ∈ seen) ∧
  (∀ r ∈ seen, ∃ p ∈ m, p.1 = r.item.url ∧ r.score ≤ p.2.score)

theorem dedupStep_inv (seen : List ScoredResult)
    (m : List (String × ScoredResult)) (r : ScoredResult)
    (h : DedupInv seen m) : DedupInv (seen ++ [r]) (dedupStep m r) := by
  obtain ⟨hnd, hval, hmax⟩ := h
  rw [dedupStep]
  cases hf : m.find? (fun p => p.1 == r.item.url) with
  | none =>
    rw [List.find?_eq_none] at hf
    have hknot : r.item.url ∉ m.map Prod.fst := by
      intro hk
      obtain ⟨p, hp, hpk⟩ := List.mem_map.mp hk
      exact hf p hp (by simp [hpk])
    refine ⟨?_, ?_, ?_⟩
    · rw [List.map_append, List.nodup_append]
      refine ⟨hnd, List.nodup_singleton _, ?_⟩
      intro k hk
      simp only [List.map_cons, List.map_nil, List.mem_singleton]
      intro hke
      exact hknot (hke ▸ hk)
    · intro p hp
      rcases List.mem_append.mp hp with hp | hp
      · obtain ⟨h1, h2⟩ := hval p hp
        exact ⟨h1, List.mem_append_left _ h2⟩
      · rw [List.mem_singleton] at hp
        subst hp
        exact ⟨rfl, List.mem_append_right _ (List.mem_singleton_self _)⟩
    · intro x hx
      rcases List.mem_append.mp hx with hx | hx
      · obtain ⟨p, hp, h1, h2⟩ := hmax x hx
        exact ⟨p, List.mem_append_left _ hp, h1, h2⟩
      · rw [List.mem_singleton] at hx
        subst hx
        exact ⟨(x.item.url, x),
          List.mem_append_right _ (List.mem_singleton_self _), rfl, le_rfl⟩
  | some p =>
    have hp : p ∈ m := List.mem_of_find?_eq_some hf
    have hpk : p.1 = r.item.url := by
      have := List.find?_some hf
      simpa using this
    show DedupInv (seen ++ [r])
      (if p.2.score < r.score then
        m.map fun q => if q.1 == r.item.url then (q.1, r) else q
      else m)
    by_cases hlt : p.2.score < r.score
    · rw [if_pos hlt]
      have hfst : (m.map fun q =>
          if q.1 == r.item.url then (q.1, r) else q).map Prod.fst =
          m.map Prod.fst := by
        rw [List.map_map]
        refine List.map_congr_left fun q _ => ?_
        by_cases hqk : q.1 = r.item.url
        · rw [Function.comp_apply, if_pos (by simpa using hqk)]
        · rw [Function.comp_apply, if_neg (by simpa using hqk)]
      refine ⟨by rw [hfst]; exact hnd, ?_, ?_⟩
      · intro x hx
        obtain ⟨q, hq, hqe⟩ := List.mem_map.mp hx
        by_cases hqk : (q.1 == r.item.url) = true
        · rw [if_pos hqk] at hqe
          subst hqe
          simp only [beq_iff_eq] at hqk
          exact ⟨hqk.symm,
            List.mem_append_right _ (List.mem_singleton_self _)⟩
        · rw [if_neg hqk] at hqe
          subst hqe
          obtain ⟨h1, h2⟩ := hval q hq
          exact ⟨h1, List.mem_append_left _ h2⟩
      · intro x hx
        rcases List.mem_append.mp hx with hx | hx
        · obtain ⟨q, hq, hqk, hqs⟩ := hmax x hx
          refine ⟨if q.1 == r.item.url then (q.1, r) else q,
            List.mem_map_of_mem _ hq, ?_⟩
          by_cases hqk2 : (q.1 == r.item.url) = true
          · rw [if_pos hqk2]
            have hqeqp : q = p := by
              refine List.inj_on_of_nodup_map hnd hq hp ?_
              rw [hpk]
              exact beq_iff_eq.mp hqk2
            refine ⟨hqk, ?_⟩
            calc x.score ≤ q.2.score := hqs
              _ = p.2.score := by rw [hqeqp]
              _ ≤ r.score := le_of_lt hlt
          · rw [if_neg hqk2]
            exact ⟨hqk, hqs⟩
        · rw [List.mem_singleton] at hx
          subst hx
          refine ⟨(p.1, x), ?_, hpk, le_rfl⟩
          refine List.mem_map.mpr ⟨p, hp, ?_⟩
          rw [if_pos (by simp [hpk])]
    · rw [if_neg hlt]
      refine ⟨hnd, ?_, ?_⟩
      · intro q hq
        obtain ⟨h1, h2⟩ := hval q hq
        exact ⟨h1, List.mem_append_left _ h2⟩
      · intro x hx
        rcases List.mem_append.mp hx with hx | hx
        · obtain ⟨q, hq, h1, h2⟩ := hmax x hx
          exact ⟨q, hq, h1, h2⟩
        · rw [List.mem_singleton] at hx
          subst hx
          exact ⟨p, hp, hpk, not_lt.mp hlt⟩

theorem dedup_foldl_inv :
    ∀ (l seen : List ScoredResult) (m : List (String × ScoredResult)),
      DedupInv seen m → DedupInv (seen ++ l) (l.foldl dedupStep m) := by
  intro l
  induction l with
  | nil => intro seen m h; simpa using h
  | cons r l ih =>
    intro seen m h
    have := ih (seen ++ [r]) (dedupStep m r) (dedupStep_inv seen m r h)
    simpa using this

theorem dedupByUrl_inv (l : List ScoredResult) :
    DedupInv l (l.foldl dedupStep []) := by
  have h0 : DedupInv [] ([] : List (String × ScoredResult)) :=
    ⟨List.nodup_nil, by simp, by simp⟩
  simpa using dedup_foldl_inv l [] [] h0

theorem dedup_foldl_length :
    ∀ (l : List ScoredResult) (m : List (String × ScoredResult)),
      (l.foldl dedupStep m).length ≤ m.length + l.length := by
  intro l
  induction l with
  | nil => intro m; simp
  | cons r l ih =>
    intro m
    have h1 : (dedupStep m r).length ≤ m.length + 1 := by
      rw [dedupStep]
      cases hf : m.find? (fun p => p.1 == r.item.url) with
      | none => simp
      | some p =>
        show (if p.2.score < r.score then
            m.map fun q => if q.1 == r.item.url then (q.1, r) else q
          else m).length ≤ m.length + 1
        by_cases hlt : p.2.score < r.score
        · rw [if_pos hlt]
          simp
        · rw [if_neg hlt]
          omega
    calc (List.foldl dedupStep (dedupStep m r) l).length ≤
        (dedupStep m r).length + l.length := ih _
      _ ≤ m.length + (l.length + 1) := by omega
      _ = m.length + (r :: l).length := by simp

theorem dedupByUrl_length (l : List ScoredResult) :
    (dedupByUrl l).length ≤ l.length := by
  rw [dedupByUrl, List.length_map]
  simpa using dedup_foldl_length l []

theorem mem_sortByScoreDesc {l : List ScoredResult} {x : ScoredResult} :
    x ∈ sortByScoreDesc l ↔ x ∈ l := by
  rw [sortByScoreDesc]
  exact List.mem_mergeSort

theorem sortByScoreDesc_length (l : List ScoredResult) :
    (sortByScoreDesc l).length = l.length := by
  rw [sortByScoreDesc]
  exact List.length_mergeSort l

theorem sortByScoreDesc_sorted (l : List ScoredResult) :
    (sortByScoreDesc l).Pairwise fun a b => b.score ≤ a.score := by
  have h := @List.sorted_mergeSort ScoredResult
    (fun a b : ScoredResult => decide (b.score ≤ a.score))
    (fun a b c hab hbc => decide_eq_true
      (le_trans (of_decide_eq_true hbc) (of_decide_eq_true hab)))
    (fun a b => by rcases le_total a.score b.score with h | h <;> simp [h]) l
  exact h.imp fun hab => of_decide_eq_true hab

/-- The whole bookmark search: Pass 1, sort and cap, Pass 2 enrichment,
deduplication, final descending sort. -/
noncomputable def customSearch (w : Weights)
    (getHostname : String → Option String)
    (getVisits : String → Option (List Visit)) (now : ℤ) (query : String)
    (allBookmarks : List Bookmark)
    (visitCountCache : String → Option CacheEntry)
    (domainScores : String → ℕ) (bookmarkTags : String → List String) :
    List ScoredResult :=
  sortByScoreDesc
    (dedupByUrl
      (enrichedResultsOf w getHostname getVisits now query allBookmarks
        visitCountCache domainScores bookmarkTags))

theorem mem_dedupByUrl_sub {l : List ScoredResult} {x : ScoredResult}
    (h : x ∈ dedupByUrl l) : x ∈ l := by
  rw [dedupByUrl] at h
  obtain ⟨p, hp, hpe⟩ := List.mem_map.mp h
  obtain ⟨-, h2⟩ := (dedupByUrl_inv l).2.1 p hp
  exact hpe ▸ h2

theorem dedupByUrl_unique {l : List ScoredResult} {x y : ScoredResult}
    (hx : x ∈ dedupByUrl l) (hy : y ∈ dedupByUrl l)
    (hurl : x.item.url = y.item.url) : x = y := by
  rw [dedupByUrl] at hx hy
  obtain ⟨p, hp, hpe⟩ := List.mem_map.mp hx
  obtain ⟨q, hq, hqe⟩ := List.mem_map.mp hy
  obtain ⟨hnd, hval, -⟩ := dedupByUrl_inv l
  have hpq : p = q := by
    refine List.inj_on_of_nodup_map hnd hp hq ?_
    show p.1 = q.1
    rw [← (hval p hp).1, ← (hval q hq).1, hpe, hqe]
    exact hurl
  rw [← hpe, ← hqe, hpq]

/-- Claim C3: the returned bookmark-search list has at most one entry per
url; when exactly two enriched entries share a url with different scores,
the higher-scoring one is returned and the lower-scoring one is not; the
returned list is sorted descending by final score and has at most 25
entries. -/
theorem customSearch_dedup_sorted_capped (w : Weights)
    (getHostname : String → Option String)
    (getVisits : String → Option (List Visit)) (now : ℤ) (query : String)
    (allBookmarks : List Bookmark)
    (visitCountCache : String → Option CacheEntry)
    (domainScores : String → ℕ) (bookmarkTags : String → List String)
    (r1 r2 : ScoredResult)
    (h1 : r1 ∈ enrichedResultsOf w getHostname getVisits now query
      allBookmarks visitCountCache domainScores bookmarkTags)
    (h2 : r2 ∈ enrichedResultsOf w getHostname getVisits now query
      allBookmarks visitCountCache domainScores bookmarkTags)
    (hurl : r1.item.url = r2.item.url) (hlt : r1.score < r2.score)
    (honly : ∀ r ∈ enrichedResultsOf w getHostname getVisits now query
      allBookmarks visitCountCache domainScores bookmarkTags,
      r.item.url = r1.item.url → r = r1 ∨ r = r2) :
    (customSearch w getHostname getVisits now query allBookmarks
      visitCountCache domainScores bookmarkTags).length ≤ 25 ∧
    (customSearch w getHostname getVisits now query allBookmarks
      visitCountCache domainScores bookmarkTags).Pairwise
      (fun a b => b.score ≤ a.score) ∧
    (∀ x ∈ customSearch w getHostname getVisits now query allBookmarks
        visitCountCache domainScores bookmarkTags,
      ∀ y ∈ customSearch w getHostname getVisits now query allBookmarks
        visitCountCache domainScores bookmarkTags,
      x.item.url = y.item.url → x = y) ∧
    r2 ∈ customSearch w getHostname getVisits now query allBookmarks
      visitCountCache domainScores bookmarkTags ∧
    r1 ∉ customSearch w getHostname getVisits now query allBookmarks
      visitCountCache domainScores bookmarkTags := by
  have hcs : customSearch w getHostname getVisits now query allBookmarks
      visitCountCache domainScores bookmarkTags =
      sortByScoreDesc (dedupByUrl (enrichedResultsOf w getHostname getVisits
        now query allBookmarks visitCountCache domainScores bookmarkTags)) :=
    rfl
  set E := enrichedResultsOf w getHostname getVisits now query allBookmarks
    visitCountCache domainScores bookmarkTags with hE
  have hElen : E.length ≤ 25 := by
    rw [hE, enrichedResultsOf, List.length_map, topResultsOf,
      List.length_take]
    exact min_le_left _ _
  refine ⟨?_, ?_, ?_, ?_⟩
  · rw [hcs, sortByScoreDesc_length]
    have := dedupByUrl_length E
    omega
  · rw [hcs]
    exact sortByScoreDesc_sorted _
  · intro x hx y hy hxy
    rw [hcs, mem_sortByScoreDesc] at hx hy
    exact dedupByUrl_unique hx hy hxy
  · obtain ⟨hnd, hval, hmax⟩ := dedupByUrl_inv E
    obtain ⟨p, hp, hpk, hps⟩ := hmax r2 h2
    have hpmem : p.2 ∈ dedupByUrl E := by
      rw [dedupByUrl]
      exact List.mem_map_of_mem _ hp
    have hpurl : p.2.item.url = r1.item.url := by
      rw [(hval p hp).1, hpk, hurl]
    have hpr2 : p.2 = r2 := by
      rcases honly p.2 (mem_dedupByUrl_sub hpmem) hpurl with h | h
      · exfalso
        rw [h] at hps
        exact absurd (lt_of_le_of_lt hps hlt) (lt_irrefl _)
      · exact h
    constructor
    · rw [hcs, mem_sortByScoreDesc, ← hpr2]
      exact hpmem
    · intro hr1
      rw [hcs, mem_sortByScoreDesc] at hr1
      have h12 : r1 = p.2 := dedupByUrl_unique hr1 hpmem hpurl.symm
      rw [hpr2] at h12
      rw [h12] at hlt
      exact lt_irrefl _ hlt

/-! ## Score positivity (claim C2) -/

theorem applyMultipliers_pos (w : Weights)
    (getHostname : String → Option String) (domainScores : String → ℕ)
    (queryWords : List String) (bm : Bookmark) (a : ℝ × List String)
    (h0 : 0 < a.1) (hb : 0 < w.allWordsBonus) :
    0 < applyMultipliers w getHostname domainScores queryWords bm a := by
  simp only [applyMultipliers]
  have hs1 : 0 < (if a.2.length = queryWords.length ∧
      1 < queryWords.length then a.1 * w.allWordsBonus else a.1) := by
    split
    · exact mul_pos h0 hb
    · exact h0
  cases getHostname bm.url with
  | none => exact hs1
  | some domain =>
    show (0 : ℝ) < if domainScores domain ≠ 0 then _ * _ else _
    split
    · refine mul_pos hs1 ?_
      have hlog : (0 : ℝ) ≤ Real.log (1 + (domainScores domain : ℝ)) :=
        Real.log_nonneg (le_add_of_nonneg_right (by positivity))
      have : (0 : ℝ) ≤ Real.log (1 + (domainScores domain : ℝ)) * 0.1 :=
        mul_nonneg hlog (by norm_num)
      linarith
    · exact hs1

theorem scoreBookmark_pos (w : Weights)
    (getHostname : String → Option String) (domainScores : String → ℕ)
    (bookmarkTags : String → List String) (queryWords : List String)
    (isTagOnly : Bool) (bm : Bookmark) (r : ScoredResult)
    (hb : 0 < w.allWordsBonus)
    (h : scoreBookmark w getHostname domainScores bookmarkTags queryWords
      isTagOnly bm = some r) : 0 < r.score ∧ r.item = bm := by
  simp only [scoreBookmark] at h
  by_cases h0 : 0 < (lexicalScore w (bookmarkTags bm.url)
      (jsToLower bm.title) (jsToLower bm.url) queryWords isTagOnly).1
  · rw [if_pos h0] at h
    obtain rfl := Option.some.inj h
    exact ⟨applyMultipliers_pos w getHostname domainScores queryWords bm _
      h0 hb, rfl⟩
  · rw [if_neg h0] at h
    exact absurd h (by simp)

theorem historyBonus_nonneg (w : Weights) (now : ℤ) (visits : List Visit)
    (hv : 0 ≤ w.visitCount) : 0 ≤ historyBonus w now visits := by
  rw [historyBonus]
  have h1 : (0 : ℝ) ≤ Real.log ((visits.length : ℝ) + 1) :=
    Real.log_nonneg (le_add_of_nonneg_left (by positivity))
  exact add_nonneg (mul_nonneg h1 hv) (le_max_left 0 _)

theorem cacheBonus_nonneg (w : Weights) (now : ℤ) (e : CacheEntry)
    (hv : 0 ≤ w.visitCount) : 0 ≤ cacheBonus w now e := by
  rw [cacheBonus]
  have h1 : (0 : ℝ) ≤ Real.log ((e.visitCount : ℝ) + 1) :=
    Real.log_nonneg (le_add_of_nonneg_left (by positivity))
  refine add_nonneg (mul_nonneg h1 hv) ?_
  split
  · exact le_max_left 0 _
  · exact le_rfl

theorem enrichFromHistory_ge (w : Weights) (now : ℤ)
    (getVisits : String → Option (List Visit)) (r : ScoredResult)
    (hv : 0 ≤ w.visitCount) :
    r.score ≤ (enrichFromHistory w now getVisits r).score ∧
      (enrichFromHistory w now getVisits r).item = r.item := by
  rw [enrichFromHistory]
  split
  · exact ⟨le_add_of_nonneg_right (historyBonus_nonneg w now _ hv), rfl⟩
  · exact ⟨le_rfl, rfl⟩

theorem enrichResult_ge (w : Weights) (now : ℤ)
    (cache : String → Option CacheEntry)
    (getVisits : String → Option (List Visit)) (r : ScoredResult)
    (hv : 0 ≤ w.visitCount) :
    r.score ≤ (enrichResult w now cache getVisits r).score ∧
      (enrichResult w now cache getVisits r).item = r.item := by
  rw [enrichResult]
  cases cache r.item.url with
  | none => exact enrichFromHistory_ge w now getVisits r hv
  | some e =>
    show r.score ≤ (if now - e.timestamp < CACHE_TTL
        then { r with score := r.score + cacheBonus w now e }
        else enrichFromHistory w now getVisits r).score ∧
      (if now - e.timestamp < CACHE_TTL
        then { r with score := r.score + cacheBonus w now e }
        else enrichFromHistory w now getVisits r).item = r.item
    split
    · exact ⟨le_add_of_nonneg_right (cacheBonus_nonneg w now e hv), rfl⟩
    · exact enrichFromHistory_ge w now getVisits r hv

/-- Claim C2, amended: with all weights non-negative and a strictly
positive all-words multiplier, every entry of a returned bookmark-search
list has score strictly greater than 0; and a candidate whose accumulated
lexical score is not positive gets no result entry — it is never enriched
and never appears in the returned list. -/
theorem customSearch_positive (w : Weights)
    (getHostname : String → Option String)
    (getVisits : String → Option (List Visit)) (now : ℤ) (query : String)
    (allBookmarks : List Bookmark)
    (visitCountCache : String → Option CacheEntry)
    (domainScores : String → ℕ) (bookmarkTags : String → List String)
    (ht : 0 ≤ w.titleMatch) (hsb : 0 ≤ w.startsWithBonus)
    (htm : 0 ≤ w.tagMatch) (hum : 0 ≤ w.urlMatch)
    (hv : 0 ≤ w.visitCount) (hrc : 0 ≤ w.recency)
    (hb : 0 < w.allWordsBonus) :
    (∀ r ∈ customSearch w getHostname getVisits now query allBookmarks
        visitCountCache domainScores bookmarkTags, 0 < r.score) ∧
    (∀ bm : Bookmark,
      (lexicalScore w (bookmarkTags bm.url) (jsToLower bm.title)
        (jsToLower bm.url) (parseQuery query).1
        (decide ((parseQuery query).1.length = 0) &&
          decide (0 < (parseQuery query).2.length))).1 ≤ 0 →
      scoreBookmark w getHostname domainScores bookmarkTags
        (parseQuery query).1
        (decide ((parseQuery query).1.length = 0) &&
          decide (0 < (parseQuery query).2.length)) bm = none ∧
      ∀ r ∈ customSearch w getHostname getVisits now query allBookmarks
        visitCountCache domainScores bookmarkTags, r.item ≠ bm) := by
  have origin : ∀ r ∈ customSearch w getHostname getVisits now query
      allBookmarks visitCountCache domainScores bookmarkTags,
      ∃ b ∈ filterByTags (parseQuery query).2 bookmarkTags allBookmarks,
        ∃ t : ScoredResult,
          scoreBookmark w getHostname domainScores bookmarkTags
            (parseQuery query).1
            (decide ((parseQuery query).1.length = 0) &&
              decide (0 < (parseQuery query).2.length)) b = some t ∧
          r.item = b ∧ t.score ≤ r.score ∧ 0 < t.score := by
    intro r hr
    have hr1 : r ∈ dedupByUrl (enrichedResultsOf w getHostname getVisits
        now query allBookmarks visitCountCache domainScores bookmarkTags) :=
      mem_sortByScoreDesc.mp hr
    have hr2 := mem_dedupByUrl_sub hr1
    simp only [enrichedResultsOf] at hr2
    obtain ⟨t, ht1, rfl⟩ := List.mem_map.mp hr2
    have ht2 : t ∈ sortByScoreDesc (preliminaryResultsOf w getHostname
        domainScores bookmarkTags query allBookmarks) := by
      simp only [topResultsOf] at ht1
      exact List.take_subset _ _ ht1
    have ht3 := mem_sortByScoreDesc.mp ht2
    simp only [preliminaryResultsOf] at ht3
    obtain ⟨b, hb1, hb2⟩ := List.mem_filterMap.mp ht3
    obtain ⟨hpos, hitem⟩ := scoreBookmark_pos w getHostname domainScores
      bookmarkTags (parseQuery query).1 _ b t hb hb2
    obtain ⟨hge, hitem2⟩ :=
      enrichResult_ge w now visitCountCache getVisits t hv
    exact ⟨b, hb1, t, hb2, by rw [hitem2, hitem], hge, hpos⟩
  constructor
  · intro r hr
    obtain ⟨b, -, t, -, -, hge, hpos⟩ := origin r hr
    exact lt_of_lt_of_le hpos hge
  · intro bm hlex
    have hnone : scoreBookmark w getHostname domainScores bookmarkTags
        (parseQuery query).1
        (decide ((parseQuery query).1.length = 0) &&
          decide (0 < (parseQuery query).2.length)) bm = none := by
      simp only [scoreBookmark]
      rw [if_neg (not_lt.mpr hlex)]
    refine ⟨hnone, ?_⟩
    intro r hr hitem
    obtain ⟨b, -, t, hsb2, hritem, -, -⟩ := origin r hr
    have hbbm : b = bm := by rw [← hritem, hitem]
    rw [hbbm, hnone] at hsb2
    exact absurd hsb2 (by simp)

theorem customSearch_positive_witness :
    ((0 : ℝ) ≤ defaultWeights.titleMatch ∧
      (0 : ℝ) ≤ defaultWeights.startsWithBonus ∧
      (0 : ℝ) ≤ defaultWeights.tagMatch ∧
      (0 : ℝ) ≤ defaultWeights.urlMatch ∧
      (0 : ℝ) ≤ defaultWeights.visitCount ∧
      (0 : ℝ) ≤ defaultWeights.recency ∧
      (0 : ℝ) < defaultWeights.allWordsBonus) ∧
    ∀ r ∈ customSearch defaultWeights (fun _ => none) (fun _ => none) 0
        "a b" [⟨"a b", "u", ""⟩] (fun _ => none) (fun _ => 0)
        (fun _ => []), 0 < r.score := by
  refine ⟨by norm_num [defaultWeights], ?_⟩
  exact (customSearch_positive defaultWeights (fun _ => none)
    (fun _ => none) 0 "a b" [⟨"a b", "u", ""⟩] (fun _ => none) (fun _ => 0)
    (fun _ => []) (by norm_num [defaultWeights])
    (by norm_num [defaultWeights]) (by norm_num [defaultWeights])
    (by norm_num [defaultWeights]) (by norm_num [defaultWeights])
    (by norm_num [defaultWeights]) (by norm_num [defaultWeights])).1

/-! ## Concrete evaluations of the pipeline -/

/-- A weight configuration that is non-negative everywhere but has a zero
all-words multiplier. -/
noncomputable def zeroBonusWeights : Weights := ⟨10, 15, 20, 3, 0, 5, 10⟩

theorem enrichResult_trivial (w : Weights) (now : ℤ) (r : ScoredResult) :
    enrichResult w now (fun _ => none) (fun _ => none) r = r := by
  rw [enrichResult]
  show enrichFromHistory w now (fun _ => none) r = r
  rw [enrichFromHistory]
  simp

theorem zbWordA : scoreWord zeroBonusWeights [] (jsToLower "a b")
    (jsToLower "u") "a" = (25, true) := by
  rw [scoreWord]
  have h1 : jsIncludes (jsToLower "a b") "a" = true := by decide
  have h2 : (splitOnSpace (jsToLower "a b")).any
      (fun tw => jsStartsWith tw "a") = true := by decide
  rw [h1, h2]
  norm_num [zeroBonusWeights]

theorem zbWordB : scoreWord zeroBonusWeights [] (jsToLower "a b")
    (jsToLower "u") "b" = (25, true) := by
  rw [scoreWord]
  have h1 : jsIncludes (jsToLower "a b") "b" = true := by decide
  have h2 : (splitOnSpace (jsToLower "a b")).any
      (fun tw => jsStartsWith tw "b") = true := by decide
  rw [h1, h2]
  norm_num [zeroBonusWeights]

theorem zbAccum : pass1Accum zeroBonusWeights [] (jsToLower "a b")
    (jsToLower "u") ["a", "b"] = (50, ["a", "b"]) := by
  simp only [pass1Accum, List.foldl_cons, List.foldl_nil, zbWordA, zbWordB]
  norm_num [insertWord]
  decide

theorem zbLex : lexicalScore zeroBonusWeights [] (jsToLower "a b")
    (jsToLower "u") ["a", "b"] false = (50, ["a", "b"]) := by
  rw [lexicalScore, zbAccum]
  norm_num

theorem zbScore : scoreBookmark zeroBonusWeights (fun _ => none)
    (fun _ => 0) (fun _ => []) ["a", "b"] false ⟨"a b", "u", ""⟩ =
    some ⟨⟨"a b", "u", ""⟩, 0⟩ := by
  rw [scoreBookmark]
  show (if 0 < (lexicalScore zeroBonusWeights [] (jsToLower "a b")
      (jsToLower "u") ["a", "b"] false).1 then
      some (ScoredResult.mk (Bookmark.mk "a b" "u" "")
        (applyMultipliers zeroBonusWeights (fun _ => none) (fun _ => 0)
          ["a", "b"] (Bookmark.mk "a b" "u" "")
          (lexicalScore zeroBonusWeights [] (jsToLower "a b")
            (jsToLower "u") ["a", "b"] false)))
    else none) = some (ScoredResult.mk (Bookmark.mk "a b" "u" "") 0)
  rw [zbLex, if_pos (by norm_num)]
  simp only [applyMultipliers]
  norm_num [zeroBonusWeights]

theorem zbSearch : customSearch zeroBonusWeights (fun _ => none)
    (fun _ => none) 0 "a b" [⟨"a b", "u", ""⟩] (fun _ => none)
    (fun _ => 0) (fun _ => []) = [⟨⟨"a b", "u", ""⟩, 0⟩] := by
  have hparse : parseQuery "a b" = (["a", "b"], []) := by decide
  have hprelim : preliminaryResultsOf zeroBonusWeights (fun _ => none)
      (fun _ => 0) (fun _ => []) "a b" [⟨"a b", "u", ""⟩] =
      [⟨⟨"a b", "u", ""⟩, 0⟩] := by
    simp only [preliminaryResultsOf, hparse]
    norm_num
    rw [filterByTags]
    norm_num
    simp [List.filterMap_cons, zbScore]
  have htop : topResultsOf zeroBonusWeights (fun _ => none) (fun _ => 0)
      (fun _ => []) "a b" [⟨"a b", "u", ""⟩] = [⟨⟨"a b", "u", ""⟩, 0⟩] := by
    rw [topResultsOf, hprelim, sortByScoreDesc, List.mergeSort_singleton]
    rfl
  show sortByScoreDesc (dedupByUrl (enrichedResultsOf zeroBonusWeights
    (fun _ => none) (fun _ => none) 0 "a b" [⟨"a b", "u", ""⟩]
    (fun _ => none) (fun _ => 0) (fun _ => []))) = _
  have henr : enrichedResultsOf zeroBonusWeights (fun _ => none)
      (fun _ => none) 0 "a b" [⟨"a b", "u", ""⟩] (fun _ => none)
      (fun _ => 0) (fun _ => []) = [⟨⟨"a b", "u", ""⟩, 0⟩] := by
    simp only [enrichedResultsOf, htop, List.map_cons, List.map_nil,
      enrichResult_trivial]
  rw [henr]
  have hded : dedupByUrl [(⟨⟨"a b", "u", ""⟩, 0⟩ : ScoredResult)] =
      [⟨⟨"a b", "u", ""⟩, 0⟩] := by
    rw [dedupByUrl]
    simp [dedupStep]
  rw [hded, sortByScoreDesc, List.mergeSort_singleton]

/-- Claim C2, counterexample: with a weight configuration that is
non-negative in every key but whose all-words multiplier is 0, the query
a b on a single bookmark titled a b returns exactly one entry whose final
score is 0 — not strictly greater than 0 — because the positivity gate
runs before the multiplier. -/
theorem customSearch_zero_score :
    ((0 : ℝ) ≤ zeroBonusWeights.titleMatch ∧
      (0 : ℝ) ≤ zeroBonusWeights.startsWithBonus ∧
      (0 : ℝ) ≤ zeroBonusWeights.tagMatch ∧
      (0 : ℝ) ≤ zeroBonusWeights.urlMatch ∧
      (0 : ℝ) ≤ zeroBonusWeights.allWordsBonus ∧
      (0 : ℝ) ≤ zeroBonusWeights.visitCount ∧
      (0 : ℝ) ≤ zeroBonusWeights.recency) ∧
    customSearch zeroBonusWeights (fun _ => none) (fun _ => none) 0 "a b"
      [⟨"a b", "u", ""⟩] (fun _ => none) (fun _ => 0) (fun _ => []) =
      [⟨⟨"a b", "u", ""⟩, 0⟩] ∧
    ¬ ∀ r ∈ customSearch zeroBonusWeights (fun _ => none) (fun _ => none) 0
        "a b" [⟨"a b", "u", ""⟩] (fun _ => none) (fun _ => 0)
        (fun _ => []), 0 < r.score := by
  refine ⟨by norm_num [zeroBonusWeights], zbSearch, ?_⟩
  intro hall
  have := hall ⟨⟨"a b", "u", ""⟩, 0⟩
    (by rw [zbSearch]; exact List.mem_singleton_self _)
  exact absurd this (by norm_num)

theorem dwWordA1 : scoreWord defaultWeights [] (jsToLower "a")
    (jsToLower "u") "a" = (25, true) := by
  rw [scoreWord]
  have h1 : jsIncludes (jsToLower "a") "a" = true := by decide
  have h2 : (splitOnSpace (jsToLower "a")).any
      (fun tw => jsStartsWith tw "a") = true := by decide
  rw [h1, h2]
  norm_num [defaultWeights]

theorem dwWordB1 : scoreWord defaultWeights [] (jsToLower "a")
    (jsToLower "u") "b" = (0, false) := by
  rw [scoreWord]
  have h1 : jsIncludes (jsToLower "a") "b" = false := by decide
  have h2 : jsIncludes (jsToLower "u") "b" = false := by decide
  rw [h1, h2]
  simp

theorem dwAccum1 : pass1Accum defaultWeights [] (jsToLower "a")
    (jsToLower "u") ["a", "b"] = (25, ["a"]) := by
  simp only [pass1Accum, List.foldl_cons, List.foldl_nil, dwWordA1,
    dwWordB1]
  norm_num [insertWord]

theorem dwLex1 : lexicalScore defaultWeights [] (jsToLower "a")
    (jsToLower "u") ["a", "b"] false = (25, ["a"]) := by
  rw [lexicalScore, dwAccum1]
  have hdist : levenshteinDistance (joinSpace ["a", "b"])
      (jsTake (jsToLower "a") (joinSpace ["a", "b"]).length) = 2 := by
    decide
  simp only [hdist]
  norm_num
  decide

theorem dwScore1 : scoreBookmark defaultWeights (fun _ => none)
    (fun _ => 0) (fun _ => []) ["a", "b"] false ⟨"a", "u", ""⟩ =
    some ⟨⟨"a", "u", ""⟩, 25⟩ := by
  rw [scoreBookmark]
  show (if 0 < (lexicalScore defaultWeights [] (jsToLower "a")
      (jsToLower "u") ["a", "b"] false).1 then
      some (ScoredResult.mk (Bookmark.mk "a" "u" "")
        (applyMultipliers defaultWeights (fun _ => none) (fun _ => 0)
          ["a", "b"] (Bookmark.mk "a" "u" "")
          (lexicalScore defaultWeights [] (jsToLower "a") (jsToLower "u")
            ["a", "b"] false)))
    else none) = some (ScoredResult.mk (Bookmark.mk "a" "u" "") 25)
  rw [dwLex1, if_pos (by norm_num)]
  simp only [applyMultipliers]
  norm_num

theorem dwWordA2 : scoreWord defaultWeights [] (jsToLower "a b")
    (jsToLower "u") "a" = (25, true) := by
  rw [scoreWord]
  have h1 : jsIncludes (jsToLower "a b") "a" = true := by decide
  have h2 : (splitOnSpace (jsToLower "a b")).any
      (fun tw => jsStartsWith tw "a") = true := by decide
  rw [h1, h2]
  norm_num [defaultWeights]

theorem dwWordB2 : scoreWord defaultWeights [] (jsToLower "a b")
    (jsToLower "u") "b" = (25, true) := by
  rw [scoreWord]
  have h1 : jsIncludes (jsToLower "a b") "b" = true := by decide
  have h2 : (splitOnSpace (jsToLower "a b")).any
      (fun tw => jsStartsWith tw "b") = true := by decide
  rw [h1, h2]
  norm_num [defaultWeights]

theorem dwAccum2 : pass1Accum defaultWeights [] (jsToLower "a b")
    (jsToLower "u") ["a", "b"] = (50, ["a", "b"]) := by
  simp only [pass1Accum, List.foldl_cons, List.foldl_nil, dwWordA2,
    dwWordB2]
  norm_num [insertWord]
  decide

theorem dwLex2 : lexicalScore defaultWeights [] (jsToLower "a b")
    (jsToLower "u") ["a", "b"] false = (50, ["a", "b"]) := by
  rw [lexicalScore, dwAccum2]
  norm_num

theorem dwScore2 : scoreBookmark defaultWeights (fun _ => none)
    (fun _ => 0) (fun _ => []) ["a", "b"] false ⟨"a b", "u", ""⟩ =
    some ⟨⟨"a b", "u", ""⟩, 75⟩ := by
  rw [scoreBookmark]
  show (if 0 < (lexicalScore defaultWeights [] (jsToLower "a b")
      (jsToLower "u") ["a", "b"] false).1 then
      some (ScoredResult.mk (Bookmark.mk "a b" "u" "")
        (applyMultipliers defaultWeights (fun _ => none) (fun _ => 0)
          ["a", "b"] (Bookmark.mk "a b" "u" "")
          (lexicalScore defaultWeights [] (jsToLower "a b") (jsToLower "u")
            ["a", "b"] false)))
    else none) = some (ScoredResult.mk (Bookmark.mk "a b" "u" "") 75)
  rw [dwLex2, if_pos (by norm_num)]
  simp only [applyMultipliers]
  norm_num [defaultWeights]

theorem dwPrelim : preliminaryResultsOf defaultWeights (fun _ => none)
    (fun _ => 0) (fun _ => []) "a b" [⟨"a", "u", ""⟩, ⟨"a b", "u", ""⟩] =
    [⟨⟨"a", "u", ""⟩, 25⟩, ⟨⟨"a b", "u", ""⟩, 75⟩] := by
  have hparse : parseQuery "a b" = (["a", "b"], []) := by decide
  simp only [preliminaryResultsOf, hparse]
  norm_num
  rw [filterByTags]
  norm_num
  simp [List.filterMap_cons, dwScore1, dwScore2]

theorem dwEnriched : enrichedResultsOf defaultWeights (fun _ => none)
    (fun _ => none) 0 "a b" [⟨"a", "u", ""⟩, ⟨"a b", "u", ""⟩]
    (fun _ => none) (fun _ => 0) (fun _ => []) =
    sortByScoreDesc [⟨⟨"a", "u", ""⟩, 25⟩, ⟨⟨"a b", "u", ""⟩, 75⟩] := by
  simp only [enrichedResultsOf, topResultsOf, dwPrelim]
  rw [List.take_of_length_le (by rw [sortByScoreDesc_length]; norm_num)]
  exact (List.map_congr_left fun x _ =>
    enrichResult_trivial defaultWeights 0 x).trans (List.map_id _)

theorem customSearch_dedup_sorted_capped_witness :
    ((⟨⟨"a", "u", ""⟩, 25⟩ : ScoredResult) ∈ enrichedResultsOf
      defaultWeights (fun _ => none) (fun _ => none) 0 "a b"
      [⟨"a", "u", ""⟩, ⟨"a b", "u", ""⟩] (fun _ => none) (fun _ => 0)
      (fun _ => [])) ∧
    ((⟨⟨"a b", "u", ""⟩, 75⟩ : ScoredResult) ∈ enrichedResultsOf
      defaultWeights (fun _ => none) (fun _ => none) 0 "a b"
      [⟨"a", "u", ""⟩, ⟨"a b", "u", ""⟩] (fun _ => none) (fun _ => 0)
      (fun _ => [])) ∧
    ((25 : ℝ) < 75) ∧
    ((⟨⟨"a b", "u", ""⟩, 75⟩ : ScoredResult) ∈ customSearch defaultWeights
      (fun _ => none) (fun _ => none) 0 "a b"
      [⟨"a", "u", ""⟩, ⟨"a b", "u", ""⟩] (fun _ => none) (fun _ => 0)
      (fun _ => [])) ∧
    ((⟨⟨"a", "u", ""⟩, 25⟩ : ScoredResult) ∉ customSearch defaultWeights
      (fun _ => none) (fun _ => none) 0 "a b"
      [⟨"a", "u", ""⟩, ⟨"a b", "u", ""⟩] (fun _ => none) (fun _ => 0)
      (fun _ => [])) := by
  have h1 : (⟨⟨"a", "u", ""⟩, 25⟩ : ScoredResult) ∈ enrichedResultsOf
      defaultWeights (fun _ => none) (fun _ => none) 0 "a b"
      [⟨"a", "u", ""⟩, ⟨"a b", "u", ""⟩] (fun _ => none) (fun _ => 0)
      (fun _ => []) := by
    rw [dwEnriched, mem_sortByScoreDesc]
    simp
  have h2 : (⟨⟨"a b", "u", ""⟩, 75⟩ : ScoredResult) ∈ enrichedResultsOf
      defaultWeights (fun _ => none) (fun _ => none) 0 "a b"
      [⟨"a", "u", ""⟩, ⟨"a b", "u", ""⟩] (fun _ => none) (fun _ => 0)
      (fun _ => []) := by
    rw [dwEnriched, mem_sortByScoreDesc]
    simp
  have honly : ∀ r ∈ enrichedResultsOf defaultWeights (fun _ => none)
      (fun _ => none) 0 "a b" [⟨"a", "u", ""⟩, ⟨"a b", "u", ""⟩]
      (fun _ => none) (fun _ => 0) (fun _ => []),
      r.item.url = (⟨⟨"a", "u", ""⟩, 25⟩ : ScoredResult).item.url →
      r = ⟨⟨"a", "u", ""⟩, 25⟩ ∨ r = ⟨⟨"a b", "u", ""⟩, 75⟩ := by
    intro r hr _
    rw [dwEnriched, mem_sortByScoreDesc] at hr
    simpa using hr
  have hmain := customSearch_dedup_sorted_capped defaultWeights
    (fun _ => none) (fun _ => none) 0 "a b"
    [⟨"a", "u", ""⟩, ⟨"a b", "u", ""⟩] (fun _ => none) (fun _ => 0)
    (fun _ => []) ⟨⟨"a", "u", ""⟩, 25⟩ ⟨⟨"a b", "u", ""⟩, 75⟩ h1 h2 rfl
    (by norm_num) honly
  exact ⟨h1, h2, by norm_num, hmain.2.2.2.1, hmain.2.2.2.2⟩

end BookmarkSearch
